import Mathlib

/-
Verification of the sector-rotation scoring-and-backtesting engine.

The repository ships the React frontend (pages, API client, type
declarations) and a README describing the Python backend; the backend
services themselves (composite scorer, ranking, business-cycle
classifier, sensitivity estimator, backtest simulator) are not part of
the visible sources.  Definitions for those components are therefore
modelled from the specification, as marked in their doc comments; the
frontend form model at the end is translated directly from
frontend/src/pages/BacktestPage.tsx.
-/

namespace SectorRotation

/-! ## Composite Scorer -/

/-- Modelled from the spec: the four score components blended by the
Composite Scorer (backend scoring service, not in the visible sources).
Each is pre-normalized to the [0,100] scale by its producer. -/
inductive ScoreComponent
  | mlScore
  | cycleScore
  | momentumScore
  | macroSensitivityScore
deriving DecidableEq, Repr

/-- Modelled from the spec: the fixed weights
`composite = 0.40*ml_score + 0.25*cycle_score + 0.20*momentum_score +
0.15*macro_sensitivity_score`. -/
def componentWeight : ScoreComponent → ℚ
  | .mlScore => 40 / 100
  | .cycleScore => 25 / 100
  | .momentumScore => 20 / 100
  | .macroSensitivityScore => 15 / 100

/-- The four component scores for one (sector, date), mirroring the
`SectorRanking` fields of frontend/src/types (ml_score, cycle_score,
momentum_score, macro_sensitivity_score). -/
structure ScoreComponents where
  ml_score : ℚ
  cycle_score : ℚ
  momentum_score : ℚ
  macro_sensitivity_score : ℚ
deriving DecidableEq, Repr

/-- The components of a `ScoreComponents` record as a labelled list, in
the order the record supplies them. -/
def componentsList (c : ScoreComponents) : List (ScoreComponent × ℚ) :=
  [(.mlScore, c.ml_score), (.cycleScore, c.cycle_score),
   (.momentumScore, c.momentum_score),
   (.macroSensitivityScore, c.macro_sensitivity_score)]

/-- Modelled from the spec: the weighted sum over a list of supplied
labelled components. -/
def compositeOfParts (parts : List (ScoreComponent × ℚ)) : ℚ :=
  (parts.map fun p => componentWeight p.1 * p.2).sum

/-- Modelled from the spec: the composite score of a full component
record (pure weighted combination with the fixed weights). -/
def compositeScore (c : ScoreComponents) : ℚ :=
  compositeOfParts (componentsList c)

/-! ## Ranking -/

/-- One sector's entry into the ranking: its ETF symbol and composite
score, the fields the `SectorRanking` output of frontend/src/types is
keyed by. -/
structure SectorScore where
  symbol : String
  composite_score : ℚ
deriving DecidableEq, Repr

/-- Lexicographic order on a symbol, as the order on its characters. -/
def symbolLex (a b : SectorScore) : Prop :=
  a.symbol.data < b.symbol.data

instance : DecidableRel symbolLex := fun a b =>
  inferInstanceAs (Decidable (a.symbol.data < b.symbol.data))

/-- Modelled from the spec: the order the ranking sorts by — composite
score descending, ties broken by lexicographically smaller symbol
first. -/
def RankOrder (a b : SectorScore) : Prop :=
  b.composite_score < a.composite_score ∨
    (a.composite_score = b.composite_score ∧ a.symbol.data ≤ b.symbol.data)

instance : DecidableRel RankOrder := fun a b =>
  inferInstanceAs (Decidable (_ ∨ _ ∧ _))

instance : IsTrans SectorScore RankOrder where
  trans a b c hab hbc := by
    rcases hab with hab | ⟨hab, hab'⟩ <;> rcases hbc with hbc | ⟨hbc, hbc'⟩
    · exact Or.inl (hbc.trans hab)
    · exact Or.inl (hbc ▸ hab)
    · exact Or.inl (hbc.trans_eq hab.symm)
    · exact Or.inr ⟨hab.trans hbc, hab'.trans hbc'⟩

instance : IsTotal SectorScore RankOrder where
  total a b := by
    rcases lt_trichotomy a.composite_score b.composite_score with h | h | h
    · exact Or.inr (Or.inl h)
    · rcases le_total a.symbol.data b.symbol.data with h' | h'
      · exact Or.inl (Or.inr ⟨h, h'⟩)
      · exact Or.inr (Or.inr ⟨h.symm, h'⟩)
    · exact Or.inl (Or.inl h)

/-- Modelled from the spec: the ranking output for one date — sectors
sorted by composite score descending with the symbol tie-break, paired
with ranks 1..N. -/
def rankSectors (l : List SectorScore) : List (ℕ × SectorScore) :=
  (l.insertionSort RankOrder).enum.map fun p => (p.1 + 1, p.2)

/-! ## Indicator Normalizer: percentile -/

/-- Modelled from the spec: strict-rank percentile — the share of
historical values strictly below the as-of value, expressed 0–100. -/
def strictPercentile (hist : List ℚ) (x : ℚ) : ℚ :=
  ((hist.countP fun v => decide (v < x)) : ℚ) / hist.length * 100

/-- Modelled from the spec: weak-rank percentile — the share of
historical values at or below the as-of value, expressed 0–100. -/
def weakPercentile (hist : List ℚ) (x : ℚ) : ℚ :=
  ((hist.countP fun v => decide (v ≤ x)) : ℚ) / hist.length * 100

/-- Modelled from the spec: the average-rank percentile of the as-of
value among all historical values up to and including its date (the mean
of the strict and weak ranks, so tied values share one percentile);
`none` when fewer than the minimum two observations exist. -/
def percentileOfValue (hist : List ℚ) (x : ℚ) : Option ℚ :=
  if hist.length < 2 then none
  else some ((strictPercentile hist x + weakPercentile hist x) / 2)

/-! ## Business Cycle Classifier -/

/-- The four business-cycle regimes of the data model. -/
inductive CyclePhase
  | early_cycle
  | mid_cycle
  | late_cycle
  | recession
deriving DecidableEq, Repr

/-- The phases in a fixed enumeration order, used for the deterministic
arg-max of the classifier. -/
def allPhases : List CyclePhase :=
  [.early_cycle, .mid_cycle, .late_cycle, .recession]

/-- A cycle assessment: the inferred phase and the classifier's
confidence, mirroring the `business_cycle` object of the dashboard
payload in frontend/src/types. -/
structure CycleAssessment where
  phase : CyclePhase
  confidence : ℚ
deriving DecidableEq, Repr

/-- Modelled from the spec: rule-based classification (backend
business-cycle service, not in the visible sources) — each usable
indicator contributes one phase vote, the phase with the most votes wins
with ties broken by the fixed enumeration order, and confidence is the
fraction of votes agreeing with the chosen phase.  With zero usable
indicators it falls back to the last known phase with confidence 0. -/
def classifyCycle (votes : List CyclePhase) (fallback : CyclePhase) :
    CycleAssessment :=
  if votes.isEmpty then ⟨fallback, 0⟩
  else
    let best := allPhases.foldl
      (fun acc p => if votes.count acc < votes.count p then p else acc)
      .early_cycle
    ⟨best, (votes.count best : ℚ) / votes.length⟩

/-! ## Sensitivity Estimator -/

/-- Mean of a list of rationals (0 for the empty list). -/
def listMean (l : List ℚ) : ℚ :=
  l.sum / l.length

/-- The paired observations re-centered around their per-coordinate
means. -/
def centered (ps : List (ℚ × ℚ)) : List (ℚ × ℚ) :=
  ps.map fun p =>
    (p.1 - listMean (ps.map Prod.fst), p.2 - listMean (ps.map Prod.snd))

/-- Sum of products of the centered pairs (unnormalized covariance). -/
def covSum (ps : List (ℚ × ℚ)) : ℚ :=
  ((centered ps).map fun p => p.1 * p.2).sum

/-- Sum of squares of the centered first coordinates. -/
def varFst (ps : List (ℚ × ℚ)) : ℚ :=
  ((centered ps).map fun p => p.1 ^ 2).sum

/-- Sum of squares of the centered second coordinates. -/
def varSnd (ps : List (ℚ × ℚ)) : ℚ :=
  ((centered ps).map fun p => p.2 ^ 2).sum

/-- Modelled from the spec: the minimum number of overlapping paired
observations below which the coefficient is undefined. -/
def minObservations : ℕ := 20

/-- Modelled from the spec: the sensitivity coefficient for one
(indicator, sector) pair (backend sensitivity estimator, not in the
visible sources) — the normalized correlation of the paired
observations, together with an explicit insufficient-data flag.  Fewer
than 20 paired points yields coefficient 0 with the flag set; a
degenerate (zero-variance) series yields coefficient 0 unflagged. -/
noncomputable def sensitivityCoef (ps : List (ℚ × ℚ)) : ℝ × Bool :=
  if ps.length < minObservations then (0, true)
  else if varFst ps = 0 ∨ varSnd ps = 0 then ((0 : ℝ), false)
  else (((covSum ps : ℝ)) /
    (Real.sqrt ((varFst ps : ℚ) : ℝ) * Real.sqrt ((varSnd ps : ℚ) : ℝ)), false)

/-! ## Backtest statistics: max drawdown -/

/-- All peak-to-trough percentage declines of an equity curve: for every
ordered pair of dates, the percentage change from the earlier value to
the later one. -/
def drawdowns (curve : List ℚ) : List ℚ :=
  (curve.tails.map fun tail =>
    match tail with
    | [] => []
    | v :: vs => (v :: vs).map fun w => (w - v) / v * 100).flatten

/-- Modelled from the spec: the maximum drawdown of an equity curve —
the largest peak-to-trough decline, expressed as a non-positive
percentage (0 for a curve that never declines). -/
def maxDrawdown (curve : List ℚ) : ℚ :=
  (drawdowns curve).foldr min 0

/-! ## Backtest statistics: Sharpe ratio -/

/-- Population variance of a list of daily returns (0 for the empty
list). -/
def dailyVariance (rs : List ℚ) : ℚ :=
  ((rs.map fun r => (r - listMean rs) ^ 2).sum) / rs.length

/-- Modelled from the spec: the annualized Sharpe ratio
`mean(daily_excess_return)/stdev(daily_excess_return) × sqrt(252)` with
the default risk-free rate 0, reported as the explicit not-available
marker `none` — never infinity, NaN or a fabricated number — when the
daily return volatility is exactly zero. -/
noncomputable def sharpe (rs : List ℚ) : Option ℝ :=
  if dailyVariance rs = 0 then none
  else some (((listMean rs : ℚ) : ℝ) /
    Real.sqrt ((dailyVariance rs : ℚ) : ℝ) * Real.sqrt 252)

/-! ## Backtest Simulator -/

/-- The rebalance frequency options of a backtest configuration. -/
inductive RebalanceFreq
  | daily
  | weekly
  | monthly
deriving DecidableEq, Repr

/-- The backtest configuration, mirroring `BacktestConfig` of
frontend/src/types: start and end dates (as trading-day indices),
initial capital, rebalance frequency and the number of top sectors
held. -/
structure BacktestConfig where
  start_date : ℕ
  end_date : ℕ
  initial_capital : ℚ
  rebalance_frequency : RebalanceFreq
  top_n_sectors : ℕ
deriving DecidableEq, Repr

/-- The error kinds surfaced by the engine. -/
inductive BacktestError
  | invalidConfig
  | insufficientData
deriving DecidableEq, Repr

/-- Modelled from the spec: the read-only historical inputs the
simulator replays — the fixed sector set, each sector's daily return and
composite score per trading day, and the benchmark proxy's daily
return. -/
structure MarketData where
  sectors : List String
  dailyReturn : ℕ → String → ℚ
  score : ℕ → String → ℚ
  benchmarkReturn : ℕ → ℚ

/-- Modelled from the spec: whether a trading-day index opens a
rebalance period — every trading day, the first trading day of each
(5-trading-day) week, or the first trading day of each (21-trading-day)
month, counted from the start date. -/
def isRebalanceDay (f : RebalanceFreq) (start day : ℕ) : Bool :=
  match f with
  | .daily => true
  | .weekly => (day - start) % 5 == 0
  | .monthly => (day - start) % 21 == 0

/-- The top-n sector symbols by the given day's composite scores,
selected through the ranking of the Composite Scorer (only that day's
scores are read: no look-ahead). -/
def topSectors (data : MarketData) (day n : ℕ) : List String :=
  ((rankSectors (data.sectors.map fun s => ⟨s, data.score day s⟩)).take n).map
    fun p => p.2.symbol

/-- One simulation day: on a rebalance date the holdings are replaced by
the day's top-n basket, then the basket's equal-weighted daily return is
applied to the portfolio value and the benchmark return to the benchmark
value, and the new point is prepended to the reversed curve. -/
def simStep (cfg : BacktestConfig) (data : MarketData)
    (st : List String × ℚ × ℚ × List (ℚ × ℚ)) (day : ℕ) :
    List String × ℚ × ℚ × List (ℚ × ℚ) :=
  let holdings := if isRebalanceDay cfg.rebalance_frequency cfg.start_date day
    then topSectors data day cfg.top_n_sectors
    else st.1
  let pv := st.2.1 * (1 + listMean (holdings.map (data.dailyReturn day)))
  let bv := st.2.2.1 * (1 + data.benchmarkReturn day)
  (holdings, pv, bv, (pv, bv) :: st.2.2.2)

/-- Modelled from the spec: the time-stepped simulation over the trading
days from start to end date, producing the ordered equity curve of
(portfolio value, benchmark value) points. -/
def simulate (cfg : BacktestConfig) (data : MarketData) : List (ℚ × ℚ) :=
  ((List.range' cfg.start_date (cfg.end_date + 1 - cfg.start_date)).foldl
    (simStep cfg data) ([], cfg.initial_capital, cfg.initial_capital, [])).2.2.2.reverse

/-- The daily returns implied by consecutive points of a value curve. -/
def curveReturns (curve : List ℚ) : List ℚ :=
  (curve.zip curve.tail).map fun p => p.2 / p.1 - 1

/-- Total return of a run in percent. -/
def totalReturn (initial finalValue : ℚ) : ℚ :=
  (finalValue / initial - 1) * 100

/-- Fraction of days with a positive daily return, in percent. -/
def winRate (rets : List ℚ) : ℚ :=
  if rets.isEmpty then 0
  else ((rets.countP fun r => decide (0 < r)) : ℚ) / rets.length * 100

/-- The summary performance statistics of a completed run, mirroring the
`performance` object of `BacktestPerformance` in frontend/src/types
(the square-root-valued Sharpe ratio is computed separately by
`sharpe`). -/
structure PerformanceStats where
  total_return : ℚ
  benchmark_return : ℚ
  excess_return : ℚ
  max_drawdown : ℚ
  win_rate : ℚ
deriving DecidableEq, Repr

/-- Modelled from the spec: the statistics computed over the full
equity curve. -/
def computeStats (cfg : BacktestConfig) (curve : List (ℚ × ℚ)) :
    PerformanceStats :=
  let pcurve := curve.map Prod.fst
  let bcurve := curve.map Prod.snd
  let finalp := pcurve.getLastD cfg.initial_capital
  let finalb := bcurve.getLastD cfg.initial_capital
  { total_return := totalReturn cfg.initial_capital finalp
    benchmark_return := totalReturn cfg.initial_capital finalb
    excess_return :=
      totalReturn cfg.initial_capital finalp - totalReturn cfg.initial_capital finalb
    max_drawdown := maxDrawdown pcurve
    win_rate := winRate (curveReturns pcurve) }

/-- A completed backtest run: its immutable config, the ordered equity
curve and the summary statistics, mirroring `BacktestResult` of
frontend/src/types. -/
structure BacktestRun where
  config : BacktestConfig
  equity_curve : List (ℚ × ℚ)
  stats : PerformanceStats
deriving DecidableEq, Repr

instance (ε α : Type) [DecidableEq ε] [DecidableEq α] :
    DecidableEq (Except ε α) := fun a b =>
  match a, b with
  | .error e, .error f =>
    if h : e = f then isTrue (by rw [h])
    else isFalse fun hc => h (Except.error.inj hc)
  | .ok x, .ok y =>
    if h : x = y then isTrue (by rw [h])
    else isFalse fun hc => h (Except.ok.inj hc)
  | .error e, .ok y => isFalse fun hc => Except.noConfusion hc
  | .ok x, .error f => isFalse fun hc => Except.noConfusion hc

/-- Modelled from the spec: `run_backtest` — an invalid configuration
(`end_date` before `start_date`, `top_n_sectors` outside [1,11], or
non-positive capital) is rejected with `InvalidConfig` before any
simulation computation begins; an empty sector universe fails fast with
`InsufficientData`; otherwise the run is simulated and returned with its
statistics. -/
def run_backtest (cfg : BacktestConfig) (data : MarketData) :
    Except BacktestError BacktestRun :=
  if cfg.end_date < cfg.start_date ∨ cfg.top_n_sectors < 1 ∨
      11 < cfg.top_n_sectors ∨ cfg.initial_capital ≤ 0 then
    .error .invalidConfig
  else if data.sectors.isEmpty then
    .error .insufficientData
  else
    let curve := simulate cfg data
    .ok ⟨cfg, curve, computeStats cfg curve⟩

/-! ## Frontend backtest form (frontend/src/pages/BacktestPage.tsx) -/

/-- The backtest form state of BacktestPage.tsx: the `config` React
state that the Run Backtest button submits. -/
structure BacktestForm where
  start_date : String
  end_date : String
  initial_capital : Int
  rebalance_frequency : String
  top_n_sectors : ℕ
deriving DecidableEq, Repr

/-- The initial `useState` value of the form in BacktestPage.tsx. -/
def initialForm : BacktestForm :=
  ⟨"2005-01-01", "", 100000, "monthly", 3⟩

/-- The selectable Top N Sectors options rendered by the form:
`[1, 2, 3, 4, 5].map((n) => option)`. -/
def topNOptions : List ℕ := [1, 2, 3, 4, 5]

/-- The selectable rebalance frequency options rendered by the form. -/
def rebalanceOptions : List String := ["daily", "weekly", "monthly"]

/-- A user interaction with the form: the free-text date and capital
inputs, and the two selects, whose change events can only carry one of
the rendered options. -/
inductive FormEvent
  | setStartDate (s : String)
  | setEndDate (s : String)
  | setCapital (n : Int)
  | setRebalance (i : Fin 3)
  | setTopN (i : Fin 5)

/-- The onChange handlers of BacktestPage.tsx: each event replaces one
field of the config state, the selects taking the chosen option's
value. -/
def applyEvent (c : BacktestForm) : FormEvent → BacktestForm
  | .setStartDate s => { c with start_date := s }
  | .setEndDate s => { c with end_date := s }
  | .setCapital n => { c with initial_capital := n }
  | .setRebalance i =>
    { c with rebalance_frequency := rebalanceOptions.get ⟨i.val, i.isLt⟩ }
  | .setTopN i =>
    { c with top_n_sectors := topNOptions.get ⟨i.val, i.isLt⟩ }

/-- The form state submitted by the Run Backtest button after any
sequence of user interactions. -/
def submittedForm (events : List FormEvent) : BacktestForm :=
  events.foldl applyEvent initialForm

/-! ## Verified properties -/

theorem compositeOfParts_perm {parts parts' : List (ScoreComponent × ℚ)}
    (h : parts.Perm parts') : compositeOfParts parts = compositeOfParts parts' := by
  unfold compositeOfParts
  exact List.Perm.sum_eq (h.map _)

/-- C1: For every sector and date with all four component scores present,
the composite score equals exactly
`0.40*ml + 0.25*cycle + 0.20*momentum + 0.15*macro_sensitivity`; the four
weights are fixed constants summing to exactly 1.00, and the result is
invariant to the order in which the components are supplied. -/
theorem composite_score_spec (c : ScoreComponents)
    (parts : List (ScoreComponent × ℚ)) (hperm : parts.Perm (componentsList c)) :
    compositeScore c =
      (0.40 : ℚ) * c.ml_score + 0.25 * c.cycle_score +
        0.20 * c.momentum_score + 0.15 * c.macro_sensitivity_score ∧
    componentWeight .mlScore + componentWeight .cycleScore +
        componentWeight .momentumScore + componentWeight .macroSensitivityScore = 1 ∧
    compositeOfParts parts = compositeScore c := by
  refine ⟨?_, by norm_num [componentWeight], compositeOfParts_perm hperm⟩
  show compositeOfParts (componentsList c) = _
  simp only [compositeOfParts, componentsList, List.map_cons, List.map_nil,
    List.sum_cons, List.sum_nil, componentWeight]
  norm_num
  ring

/-- Witness for C1 at a concrete component record, supplying the
components in a shuffled order. -/
theorem composite_score_spec_witness :
    compositeScore ⟨80, 60, 40, 20⟩ =
      (0.40 : ℚ) * (80 : ℚ) + 0.25 * 60 + 0.20 * 40 + 0.15 * 20 ∧
    componentWeight .mlScore + componentWeight .cycleScore +
        componentWeight .momentumScore + componentWeight .macroSensitivityScore = 1 ∧
    compositeOfParts
        [(.macroSensitivityScore, 20), (.cycleScore, 60),
         (.mlScore, 80), (.momentumScore, 40)] =
      compositeScore ⟨80, 60, 40, 20⟩ :=
  composite_score_spec ⟨80, 60, 40, 20⟩ _ (by decide)

theorem rankSectors_map_fst (l : List SectorScore) :
    (rankSectors l).map Prod.fst = List.range' 1 l.length := by
  have hlen : (l.insertionSort RankOrder).length = l.length :=
    (List.perm_insertionSort RankOrder l).length_eq
  simp only [rankSectors, List.map_map, List.range'_eq_map_range]
  have : (Prod.fst ∘ fun p : ℕ × SectorScore => (p.1 + 1, p.2)) =
      (fun x => 1 + x) ∘ Prod.fst := by
    funext p
    simp [Nat.add_comm]
  rw [this, ← List.map_map, List.enum_map_fst, hlen]

theorem rankSectors_map_snd (l : List SectorScore) :
    (rankSectors l).map Prod.snd = l.insertionSort RankOrder := by
  simp only [rankSectors, List.map_map]
  have : (Prod.snd ∘ fun p : ℕ × SectorScore => (p.1 + 1, p.2)) =
      (Prod.snd : ℕ × SectorScore → SectorScore) := by
    funext p
    rfl
  rw [this, List.enum_map_snd]

theorem rankSectors_sorted (l : List SectorScore) :
    ((rankSectors l).map Prod.snd).Pairwise RankOrder := by
  rw [rankSectors_map_snd]
  exact List.sorted_insertionSort RankOrder l

theorem mem_rankSectors (l : List SectorScore) (r : ℕ) (s : SectorScore)
    (h : (r, s) ∈ rankSectors l) :
    ∃ hr : r - 1 < (l.insertionSort RankOrder).length,
      (l.insertionSort RankOrder).get ⟨r - 1, hr⟩ = s ∧ r = (r - 1) + 1 := by
  rcases List.mem_map.1 h with ⟨⟨i, a⟩, hmem, heq⟩
  obtain ⟨hi, rfl⟩ : r = i + 1 ∧ a = s := by
    constructor
    · exact (congrArg Prod.fst heq).symm
    · exact congrArg Prod.snd heq
  subst hi
  have := List.mem_enum_iff_getElem?.1 hmem
  rcases List.getElem?_eq_some.1 this with ⟨hlt, hget⟩
  exact ⟨by simpa using hlt, by simpa using hget, rfl⟩

/-- C2: the ranking output lists all sectors ordered by composite score
descending with ranks 1..N, and of two sectors with identical composite
scores the one with the lexicographically smaller symbol receives the
smaller rank. -/
theorem ranking_spec (l : List SectorScore) (r1 r2 : ℕ) (s1 s2 : SectorScore)
    (h1 : (r1, s1) ∈ rankSectors l) (h2 : (r2, s2) ∈ rankSectors l)
    (heq : s1.composite_score = s2.composite_score)
    (hlt : symbolLex s1 s2) :
    (rankSectors l).map Prod.fst = List.range' 1 l.length ∧
    ((rankSectors l).map Prod.snd).Perm l ∧
    ((rankSectors l).map Prod.snd).Pairwise RankOrder ∧
    r1 < r2 := by
  refine ⟨rankSectors_map_fst l, ?_, rankSectors_sorted l, ?_⟩
  · rw [rankSectors_map_snd]
    exact List.perm_insertionSort RankOrder l
  · have hsorted : (l.insertionSort RankOrder).Pairwise RankOrder := by
      have := rankSectors_sorted l
      rwa [rankSectors_map_snd] at this
    rcases mem_rankSectors l r1 s1 h1 with ⟨hi, hgi, hri⟩
    rcases mem_rankSectors l r2 s2 h2 with ⟨hj, hgj, hrj⟩
    rw [hri, hrj]
    have hij : r1 - 1 < r2 - 1 := by
      rcases Nat.lt_trichotomy (r1 - 1) (r2 - 1) with h | h | h
      · exact h
      · exfalso
        have : s1 = s2 := by
          rw [← hgi, ← hgj]
          congr 1
          exact Fin.ext h
        rw [this] at hlt
        exact lt_irrefl _ hlt
      · exfalso
        have hro : RankOrder s2 s1 := by
          have := List.pairwise_iff_get.1 hsorted ⟨r2 - 1, hj⟩ ⟨r1 - 1, hi⟩ h
          rwa [hgi, hgj] at this
        rcases hro with hsc | ⟨_, hsym⟩
        · rw [heq] at hsc
          exact lt_irrefl _ hsc
        · exact absurd hlt (not_lt.2 hsym)
    exact Nat.succ_lt_succ hij

/-- Witness for C2 at a concrete ranking: two sectors tied at composite
score 50, with the lexicographically smaller symbol XLC ranked above
XLF. -/
theorem ranking_spec_witness :
    (rankSectors [⟨"XLF", 50⟩, ⟨"XLK", 80⟩, ⟨"XLC", 50⟩]).map Prod.fst =
        List.range' 1 ([⟨"XLF", 50⟩, ⟨"XLK", 80⟩, ⟨"XLC", 50⟩] :
          List SectorScore).length ∧
    ((rankSectors [⟨"XLF", 50⟩, ⟨"XLK", 80⟩, ⟨"XLC", 50⟩]).map Prod.snd).Perm
        [⟨"XLF", 50⟩, ⟨"XLK", 80⟩, ⟨"XLC", 50⟩] ∧
    ((rankSectors [⟨"XLF", 50⟩, ⟨"XLK", 80⟩, ⟨"XLC", 50⟩]).map
        Prod.snd).Pairwise RankOrder ∧
    (2 : ℕ) < 3 :=
  ranking_spec [⟨"XLF", 50⟩, ⟨"XLK", 80⟩, ⟨"XLC", 50⟩] 2 3 ⟨"XLC", 50⟩
    ⟨"XLF", 50⟩ (by decide) (by decide) (by decide) (by decide)

theorem countP_le_add_eq (hist : List ℚ) (x : ℚ) :
    (hist.countP fun v => decide (v ≤ x)) =
      (hist.countP fun v => decide (v < x)) +
        (hist.countP fun v => decide (v = x)) := by
  induction hist with
  | nil => simp
  | cons a t ih =>
    rcases lt_trichotomy a x with h | h | h
    · simp only [List.countP_cons, decide_eq_true_eq]
      rw [if_pos h.le, if_pos h, if_neg h.ne, ih]
      omega
    · simp only [List.countP_cons, decide_eq_true_eq]
      rw [if_pos h.le, if_neg (h ▸ lt_irrefl x), if_pos h, ih]
      omega
    · simp only [List.countP_cons, decide_eq_true_eq]
      rw [if_neg (not_le.2 h), if_neg (not_lt.2 h.le), if_neg h.ne', ih]
      omega

/-- C7: with at least the minimum history, the computed percentile lies
in [0,100]; holding the historical values fixed it is non-decreasing as
the as-of value increases; and tied values receive the same percentile
via the average-rank method — the percentile is the strict-rank
percentile plus half the tied group's share. -/
theorem percentile_spec (hist : List ℚ) (x y : ℚ)
    (hlen : 2 ≤ hist.length) (hxy : x ≤ y) :
    ∃ px py, percentileOfValue hist x = some px ∧
      percentileOfValue hist y = some py ∧
      0 ≤ px ∧ px ≤ 100 ∧ px ≤ py ∧
      px = strictPercentile hist x +
        ((hist.countP fun v => decide (v = x)) : ℚ) / hist.length * 100 / 2 := by
  have hn : (0 : ℚ) < hist.length := by
    exact_mod_cast Nat.lt_of_lt_of_le Nat.zero_lt_two hlen
  have hnotlt : ¬ hist.length < 2 := not_lt.2 hlen
  refine ⟨(strictPercentile hist x + weakPercentile hist x) / 2,
    (strictPercentile hist y + weakPercentile hist y) / 2,
    by simp [percentileOfValue, hnotlt], by simp [percentileOfValue, hnotlt],
    ?_, ?_, ?_, ?_⟩
  · have h1 : 0 ≤ strictPercentile hist x := by
      unfold strictPercentile
      positivity
    have h2 : 0 ≤ weakPercentile hist x := by
      unfold weakPercentile
      positivity
    linarith
  · have h1 : strictPercentile hist x ≤ 100 := by
      unfold strictPercentile
      have hc : ((hist.countP fun v => decide (v < x)) : ℚ) / hist.length ≤ 1 := by
        rw [div_le_one hn]
        exact_mod_cast List.countP_le_length _
      nlinarith
    have h2 : weakPercentile hist x ≤ 100 := by
      unfold weakPercentile
      have hc : ((hist.countP fun v => decide (v ≤ x)) : ℚ) / hist.length ≤ 1 := by
        rw [div_le_one hn]
        exact_mod_cast List.countP_le_length _
      nlinarith
    linarith
  · have h1 : strictPercentile hist x ≤ strictPercentile hist y := by
      unfold strictPercentile
      have hc : (hist.countP fun v => decide (v < x)) ≤
          hist.countP fun v => decide (v < y) := by
        refine List.countP_mono_left fun v _ hv => ?_
        simp only [decide_eq_true_eq] at hv ⊢
        exact hv.trans_le hxy
      have hc' : ((hist.countP fun v => decide (v < x)) : ℚ) ≤
          ((hist.countP fun v => decide (v < y)) : ℚ) := by exact_mod_cast hc
      have hd := div_le_div_of_nonneg_right hc' hn.le
      nlinarith
    have h2 : weakPercentile hist x ≤ weakPercentile hist y := by
      unfold weakPercentile
      have hc : (hist.countP fun v => decide (v ≤ x)) ≤
          hist.countP fun v => decide (v ≤ y) := by
        refine List.countP_mono_left fun v _ hv => ?_
        simp only [decide_eq_true_eq] at hv ⊢
        exact hv.trans hxy
      have hc' : ((hist.countP fun v => decide (v ≤ x)) : ℚ) ≤
          ((hist.countP fun v => decide (v ≤ y)) : ℚ) := by exact_mod_cast hc
      have hd := div_le_div_of_nonneg_right hc' hn.le
      nlinarith
    linarith
  · have hw : weakPercentile hist x = strictPercentile hist x +
        ((hist.countP fun v => decide (v = x)) : ℚ) / hist.length * 100 := by
      unfold weakPercentile strictPercentile
      rw [countP_le_add_eq]
      push_cast
      ring
    rw [hw]
    ring

/-- Witness for C7: unemployment-style history [5.0, 5.0, 4.8, 4.5, 4.2]
with as-of values 4.2 and 4.8. -/
theorem percentile_spec_witness :
    ∃ px py, percentileOfValue [5, 5, 24/5, 9/2, 21/5] (21/5) = some px ∧
      percentileOfValue [5, 5, 24/5, 9/2, 21/5] (24/5) = some py ∧
      0 ≤ px ∧ px ≤ 100 ∧ px ≤ py ∧
      px = strictPercentile [5, 5, 24/5, 9/2, 21/5] (21/5) +
        (([5, 5, 24/5, 9/2, 21/5].countP fun v => decide (v = (21/5 : ℚ))) : ℚ) /
          ([5, 5, 24/5, 9/2, 21/5] : List ℚ).length * 100 / 2 :=
  percentile_spec [5, 5, 24/5, 9/2, 21/5] (21/5) (24/5) (by decide) (by norm_num)

/-- C8: the classifier always returns an assessment whose phase is one
of the four regimes with confidence in [0,1], and with zero usable
indicators it still returns the fallback phase with confidence exactly
0 rather than failing. -/
theorem classify_cycle_spec (votes : List CyclePhase) (fallback : CyclePhase) :
    (classifyCycle votes fallback).phase ∈ allPhases ∧
    0 ≤ (classifyCycle votes fallback).confidence ∧
    (classifyCycle votes fallback).confidence ≤ 1 ∧
    classifyCycle [] fallback = ⟨fallback, 0⟩ := by
  have hmem : ∀ p : CyclePhase, p ∈ allPhases := by
    intro p
    cases p <;> simp [allPhases]
  refine ⟨hmem _, ?_, ?_, by simp [classifyCycle]⟩ <;> unfold classifyCycle
  · split
    · simp
    · rename_i hne
      have hlen : (0 : ℚ) < votes.length := by
        have : votes ≠ [] := by simpa [List.isEmpty_iff] using hne
        exact_mod_cast List.length_pos.2 this
      positivity
  · split
    · simp
    · rename_i hne
      have hlen : (0 : ℚ) < votes.length := by
        have : votes ≠ [] := by simpa [List.isEmpty_iff] using hne
        exact_mod_cast List.length_pos.2 this
      simp only
      rw [div_le_one hlen]
      exact_mod_cast List.count_le_length _ _

theorem sq_sum_fst_nonneg (l : List (ℚ × ℚ)) :
    0 ≤ (l.map fun p => p.1 ^ 2).sum := by
  refine List.sum_nonneg fun x hx => ?_
  rcases List.mem_map.1 hx with ⟨p, _, rfl⟩
  exact sq_nonneg _

theorem sq_sum_snd_nonneg (l : List (ℚ × ℚ)) :
    0 ≤ (l.map fun p => p.2 ^ 2).sum := by
  refine List.sum_nonneg fun x hx => ?_
  rcases List.mem_map.1 hx with ⟨p, _, rfl⟩
  exact sq_nonneg _

theorem list_cauchy_schwarz (l : List (ℚ × ℚ)) :
    ((l.map fun p => p.1 * p.2).sum) ^ 2 ≤
      ((l.map fun p => p.1 ^ 2).sum) * ((l.map fun p => p.2 ^ 2).sum) := by
  induction l with
  | nil => simp
  | cons p t ih =>
    have hA : 0 ≤ (t.map fun p => p.1 ^ 2).sum := sq_sum_fst_nonneg t
    have hB : 0 ≤ (t.map fun p => p.2 ^ 2).sum := sq_sum_snd_nonneg t
    simp only [List.map_cons, List.sum_cons]
    rcases eq_or_lt_of_le hB with hB0 | hBpos
    · have hS : (t.map fun p => p.1 * p.2).sum = 0 := by
        nlinarith [ih, sq_nonneg (t.map fun p => p.1 * p.2).sum]
      rw [hS, ← hB0]
      nlinarith [mul_nonneg hA (sq_nonneg p.2)]
    · nlinarith [sq_nonneg (p.1 * (t.map fun p => p.2 ^ 2).sum -
        p.2 * (t.map fun p => p.1 * p.2).sum), ih, hA, hBpos,
        sq_nonneg p.1, sq_nonneg p.2,
        mul_nonneg (add_nonneg (sq_nonneg p.2) hB)
          (sub_nonneg.2 ih)]

theorem varFst_nonneg (ps : List (ℚ × ℚ)) : 0 ≤ varFst ps :=
  sq_sum_fst_nonneg (centered ps)

theorem varSnd_nonneg (ps : List (ℚ × ℚ)) : 0 ≤ varSnd ps :=
  sq_sum_snd_nonneg (centered ps)

theorem covSum_sq_le (ps : List (ℚ × ℚ)) :
    covSum ps ^ 2 ≤ varFst ps * varSnd ps :=
  list_cauchy_schwarz (centered ps)

/-- C9: every coefficient of the sensitivity matrix lies in [-1,1], a
pair with fewer than 20 overlapping observations is reported as 0
together with the insufficient-data flag, and the flag is never set for
a pair with sufficient observations (so it is distinct from a true zero
correlation). -/
theorem sensitivity_spec (ps : List (ℚ × ℚ)) :
    -1 ≤ (sensitivityCoef ps).1 ∧ (sensitivityCoef ps).1 ≤ 1 ∧
    (ps.length < minObservations → sensitivityCoef ps = ((0 : ℝ), true)) ∧
    (¬ ps.length < minObservations → (sensitivityCoef ps).2 = false) := by
  have hbounds : -1 ≤ (sensitivityCoef ps).1 ∧ (sensitivityCoef ps).1 ≤ 1 := by
    unfold sensitivityCoef
    split
    · norm_num
    · split
      · norm_num
      · rename_i hne hvar
        push_neg at hvar
        have hApos : (0 : ℚ) < varFst ps := (varFst_nonneg ps).lt_of_ne (Ne.symm hvar.1)
        have hBpos : (0 : ℚ) < varSnd ps := (varSnd_nonneg ps).lt_of_ne (Ne.symm hvar.2)
        have hAR : (0 : ℝ) < ((varFst ps : ℚ) : ℝ) := by exact_mod_cast hApos
        have hBR : (0 : ℝ) < ((varSnd ps : ℚ) : ℝ) := by exact_mod_cast hBpos
        have hcsR : ((covSum ps : ℚ) : ℝ) ^ 2 ≤
            ((varFst ps : ℚ) : ℝ) * ((varSnd ps : ℚ) : ℝ) := by
          exact_mod_cast covSum_sq_le ps
        have habs : |((covSum ps : ℚ) : ℝ)| ≤
            Real.sqrt (((varFst ps : ℚ) : ℝ) * ((varSnd ps : ℚ) : ℝ)) := by
          rw [← Real.sqrt_sq_eq_abs]
          exact Real.sqrt_le_sqrt hcsR
        rw [Real.sqrt_mul hAR.le] at habs
        have hd : (0 : ℝ) < Real.sqrt ((varFst ps : ℚ) : ℝ) *
            Real.sqrt ((varSnd ps : ℚ) : ℝ) :=
          mul_pos (Real.sqrt_pos.2 hAR) (Real.sqrt_pos.2 hBR)
        have habs' : |((covSum ps : ℚ) : ℝ) /
            (Real.sqrt ((varFst ps : ℚ) : ℝ) * Real.sqrt ((varSnd ps : ℚ) : ℝ))| ≤ 1 := by
          rw [abs_div, abs_of_pos hd]
          exact (div_le_one hd).2 habs
        exact abs_le.1 habs'
  refine ⟨hbounds.1, hbounds.2, fun hshort => ?_, fun hlong => ?_⟩
  · unfold sensitivityCoef
    rw [if_pos hshort]
  · unfold sensitivityCoef
    rw [if_neg hlong]
    split <;> rfl

/-- Witness for C9 at a single paired observation: coefficient 0 with
the insufficient-data flag set. -/
theorem sensitivity_spec_witness :
    -1 ≤ (sensitivityCoef [((1 : ℚ), (2 : ℚ))]).1 ∧
    (sensitivityCoef [((1 : ℚ), (2 : ℚ))]).1 ≤ 1 ∧
    sensitivityCoef [((1 : ℚ), (2 : ℚ))] = ((0 : ℝ), true) :=
  ⟨(sensitivity_spec [((1 : ℚ), (2 : ℚ))]).1,
   (sensitivity_spec [((1 : ℚ), (2 : ℚ))]).2.1,
   (sensitivity_spec [((1 : ℚ), (2 : ℚ))]).2.2.1 (by decide)⟩

theorem foldr_min_nonpos (l : List ℚ) : l.foldr min 0 ≤ 0 := by
  induction l with
  | nil => simp
  | cons a t ih => exact (min_le_right a _).trans ih

theorem foldr_min_eq_zero_iff (l : List ℚ) :
    l.foldr min 0 = 0 ↔ ∀ x ∈ l, 0 ≤ x := by
  induction l with
  | nil => simp
  | cons a t ih =>
    simp only [List.foldr_cons, List.mem_cons]
    constructor
    · intro h
      have ht : t.foldr min 0 ≤ 0 := foldr_min_nonpos t
      have h1 : t.foldr min 0 = 0 := by
        have hle := min_le_right a (t.foldr min 0)
        rw [h] at hle
        exact le_antisymm ht hle
      have h2 : 0 ≤ a := by
        have hle := min_le_left a (t.foldr min 0)
        rw [h] at hle
        exact hle
      intro x hx
      rcases hx with rfl | hx
      · exact h2
      · exact (ih.1 h1) x hx
    · intro h
      have h1 : t.foldr min 0 = 0 := ih.2 fun x hx => h x (Or.inr hx)
      rw [h1]
      exact min_eq_right (h a (Or.inl rfl))

theorem dd_nonneg_iff (a w : ℚ) (ha : 0 < a) :
    0 ≤ (w - a) / a * 100 ↔ a ≤ w := by
  rw [div_mul_eq_mul_div, le_div_iff₀ ha, zero_mul, ← sub_nonneg]
  constructor <;> intro h <;> nlinarith

theorem drawdowns_nonneg_iff (curve : List ℚ) (hpos : ∀ v ∈ curve, 0 < v) :
    (∀ dd ∈ drawdowns curve, 0 ≤ dd) ↔ curve.Pairwise (· ≤ ·) := by
  induction curve with
  | nil => simp [drawdowns]
  | cons a t ih =>
    have ha : 0 < a := hpos a (List.mem_cons_self a t)
    have hpt : ∀ v ∈ t, 0 < v := fun v hv => hpos v (List.mem_cons_of_mem a hv)
    have hsplit : drawdowns (a :: t) =
        ((a :: t).map fun w => (w - a) / a * 100) ++ drawdowns t := by
      simp [drawdowns, List.tails]
    rw [hsplit, List.pairwise_cons]
    constructor
    · intro h
      refine ⟨fun b hb => ?_, (ih hpt).1 fun dd hdd => h dd (List.mem_append_right _ hdd)⟩
      have := h ((b - a) / a * 100)
        (List.mem_append_left _ (List.mem_map_of_mem _ (List.mem_cons_of_mem a hb)))
      exact (dd_nonneg_iff a b ha).1 this
    · rintro ⟨hall, hpw⟩ dd hdd
      rcases List.mem_append.1 hdd with hdd | hdd
      · rcases List.mem_map.1 hdd with ⟨w, hw, rfl⟩
        refine (dd_nonneg_iff a w ha).2 ?_
        rcases hw with _ | hw
        · exact le_refl a
        · exact hall w (by assumption)
      · exact ((ih hpt).2 hpw) dd hdd

theorem maxDrawdown_nonpos (curve : List ℚ) : maxDrawdown curve ≤ 0 :=
  foldr_min_nonpos _

theorem maxDrawdown_eq_zero_iff (curve : List ℚ) (hpos : ∀ v ∈ curve, 0 < v) :
    maxDrawdown curve = 0 ↔ curve.Chain' (· ≤ ·) := by
  rw [maxDrawdown, foldr_min_eq_zero_iff, drawdowns_nonneg_iff curve hpos,
    List.chain'_iff_pairwise]

theorem sum_sq_nonneg (l : List ℚ) : 0 ≤ (l.map fun x => x ^ 2).sum := by
  refine List.sum_nonneg fun x hx => ?_
  rcases List.mem_map.1 hx with ⟨y, _, rfl⟩
  exact sq_nonneg _

theorem sum_sq_eq_zero_iff (l : List ℚ) :
    (l.map fun x => x ^ 2).sum = 0 ↔ ∀ x ∈ l, x = 0 := by
  induction l with
  | nil => simp
  | cons a t ih =>
    simp only [List.map_cons, List.sum_cons, List.mem_cons]
    constructor
    · intro h
      have h1 : 0 ≤ a ^ 2 := sq_nonneg a
      have h2 : 0 ≤ (t.map fun x => x ^ 2).sum := sum_sq_nonneg t
      have ha : a ^ 2 = 0 := by linarith
      have ht : (t.map fun x => x ^ 2).sum = 0 := by linarith
      intro x hx
      rcases hx with rfl | hx
      · exact pow_eq_zero_iff two_ne_zero |>.1 ha
      · exact ih.1 ht x hx
    · intro h
      have ha : a = 0 := h a (Or.inl rfl)
      have ht : (t.map fun x => x ^ 2).sum = 0 := ih.2 fun x hx => h x (Or.inr hx)
      rw [ha, ht]
      norm_num

/-- C6: for a completed run the Sharpe ratio is the explicit
not-available marker exactly when the daily excess-return volatility is
zero (equivalently, all daily returns equal their mean), and otherwise
it equals `mean/stdev × sqrt(252)`. -/
theorem sharpe_spec (rs : List ℚ) (hne : rs ≠ []) :
    (sharpe rs = none ↔ dailyVariance rs = 0) ∧
    (dailyVariance rs = 0 ↔ ∀ r ∈ rs, r = listMean rs) ∧
    (dailyVariance rs ≠ 0 →
      sharpe rs = some (((listMean rs : ℚ) : ℝ) /
        Real.sqrt ((dailyVariance rs : ℚ) : ℝ) * Real.sqrt 252)) := by
  have hn : (rs.length : ℚ) ≠ 0 := by
    have := List.length_pos.2 hne
    positivity
  refine ⟨?_, ?_, fun hv => ?_⟩
  · unfold sharpe
    split
    · rename_i h
      simp [h]
    · rename_i h
      simp [h]
  · unfold dailyVariance
    rw [div_eq_zero_iff]
    have hmm : (rs.map fun r => (r - listMean rs) ^ 2) =
        ((rs.map fun r => r - listMean rs).map fun x => x ^ 2) := by
      rw [List.map_map]
      rfl
    constructor
    · rintro (h | h)
      · intro r hr
        rw [hmm] at h
        have := (sum_sq_eq_zero_iff _).1 h (r - listMean rs)
          (List.mem_map_of_mem (fun r => r - listMean rs) hr)
        linarith
      · exact absurd h hn
    · intro h
      refine Or.inl ?_
      rw [hmm]
      refine (sum_sq_eq_zero_iff _).2 fun x hx => ?_
      rcases List.mem_map.1 hx with ⟨r, hr, rfl⟩
      rw [h r hr]
      ring
  · unfold sharpe
    rw [if_neg hv]

/-- Witness for C6 on the constant return series [1, 1]: zero
volatility, so the Sharpe ratio is reported as not available. -/
theorem sharpe_spec_witness :
    (sharpe [1, 1] = none ↔ dailyVariance [1, 1] = 0) ∧
    (dailyVariance [1, 1] = 0 ↔ ∀ r ∈ ([1, 1] : List ℚ), r = listMean [1, 1]) ∧
    (dailyVariance [1, 1] ≠ 0 →
      sharpe [1, 1] = some (((listMean [1, 1] : ℚ) : ℝ) /
        Real.sqrt ((dailyVariance [1, 1] : ℚ) : ℝ) * Real.sqrt 252)) :=
  sharpe_spec [1, 1] (by decide)

/-- C3: run_backtest rejects an invalid configuration — end_date
preceding start_date, top_n_sectors outside [1,11], or non-positive
initial_capital — with InvalidConfig; the rejection happens before any
simulation computation (the result does not depend on the historical
data), and no BacktestRun is produced. -/
theorem run_backtest_invalid_config (cfg : BacktestConfig)
    (data other : MarketData)
    (h : cfg.end_date < cfg.start_date ∨ cfg.top_n_sectors < 1 ∨
      11 < cfg.top_n_sectors ∨ cfg.initial_capital ≤ 0) :
    run_backtest cfg data = .error .invalidConfig ∧
    run_backtest cfg data = run_backtest cfg other ∧
    (run_backtest cfg data).toOption = none := by
  have hrej : ∀ d : MarketData, run_backtest cfg d = .error .invalidConfig := by
    intro d
    unfold run_backtest
    rw [if_pos h]
  refine ⟨hrej data, ?_, ?_⟩
  · rw [hrej data, hrej other]
  · rw [hrej data]
    rfl

/-- Witness for C3: a config whose end date precedes its start date is
rejected regardless of the market data supplied. -/
theorem run_backtest_invalid_config_witness :
    run_backtest ⟨10, 5, 100000, .monthly, 3⟩
        ⟨["XLK"], fun _ _ => 0, fun _ _ => 50, fun _ => 0⟩ =
      .error .invalidConfig ∧
    run_backtest ⟨10, 5, 100000, .monthly, 3⟩
        ⟨["XLK"], fun _ _ => 0, fun _ _ => 50, fun _ => 0⟩ =
      run_backtest ⟨10, 5, 100000, .monthly, 3⟩
        ⟨[], fun _ _ => 1, fun _ _ => 1, fun _ => 1⟩ ∧
    (run_backtest ⟨10, 5, 100000, .monthly, 3⟩
        ⟨["XLK"], fun _ _ => 0, fun _ _ => 50, fun _ => 0⟩).toOption = none :=
  run_backtest_invalid_config ⟨10, 5, 100000, .monthly, 3⟩
    ⟨["XLK"], fun _ _ => 0, fun _ _ => 50, fun _ => 0⟩
    ⟨[], fun _ _ => 1, fun _ _ => 1, fun _ => 1⟩
    (Or.inl (by norm_num))

/-- C4: the backtest is a deterministic pure function of its inputs —
two runs over the same config and identical historical series return the
same result, with identical equity curves and identical performance
statistics. -/
theorem run_backtest_deterministic (cfg1 cfg2 : BacktestConfig)
    (data1 data2 : MarketData) (hc : cfg1 = cfg2) (hd : data1 = data2) :
    run_backtest cfg1 data1 = run_backtest cfg2 data2 ∧
    (run_backtest cfg1 data1).map (fun r => r.equity_curve) =
      (run_backtest cfg2 data2).map (fun r => r.equity_curve) ∧
    (run_backtest cfg1 data1).map (fun r => r.stats) =
      (run_backtest cfg2 data2).map (fun r => r.stats) := by
  subst hc
  subst hd
  exact ⟨rfl, rfl, rfl⟩

/-- Witness for C4 at a concrete config and dataset. -/
theorem run_backtest_deterministic_witness :
    run_backtest ⟨0, 1, 100, .daily, 1⟩
        ⟨["XLK"], fun _ _ => 0, fun _ _ => 50, fun _ => 0⟩ =
      run_backtest ⟨0, 1, 100, .daily, 1⟩
        ⟨["XLK"], fun _ _ => 0, fun _ _ => 50, fun _ => 0⟩ ∧
    (run_backtest ⟨0, 1, 100, .daily, 1⟩
        ⟨["XLK"], fun _ _ => 0, fun _ _ => 50, fun _ => 0⟩).map
        (fun r => r.equity_curve) =
      (run_backtest ⟨0, 1, 100, .daily, 1⟩
        ⟨["XLK"], fun _ _ => 0, fun _ _ => 50, fun _ => 0⟩).map
        (fun r => r.equity_curve) ∧
    (run_backtest ⟨0, 1, 100, .daily, 1⟩
        ⟨["XLK"], fun _ _ => 0, fun _ _ => 50, fun _ => 0⟩).map
        (fun r => r.stats) =
      (run_backtest ⟨0, 1, 100, .daily, 1⟩
        ⟨["XLK"], fun _ _ => 0, fun _ _ => 50, fun _ => 0⟩).map
        (fun r => r.stats) :=
  run_backtest_deterministic ⟨0, 1, 100, .daily, 1⟩ ⟨0, 1, 100, .daily, 1⟩
    ⟨["XLK"], fun _ _ => 0, fun _ _ => 50, fun _ => 0⟩
    ⟨["XLK"], fun _ _ => 0, fun _ _ => 50, fun _ => 0⟩ rfl rfl

/-- C5: for every completed backtest run whose equity curve is positive,
the reported max_drawdown is ≤ 0 and it equals 0 exactly when the equity
curve is monotonically non-decreasing. -/
theorem run_max_drawdown_spec (cfg : BacktestConfig) (data : MarketData)
    (run : BacktestRun) (hok : run_backtest cfg data = .ok run)
    (hpos : ∀ p ∈ run.equity_curve, 0 < p.1) :
    run.stats.max_drawdown ≤ 0 ∧
    (run.stats.max_drawdown = 0 ↔
      (run.equity_curve.map Prod.fst).Chain' (· ≤ ·)) := by
  have hmd : run.stats.max_drawdown = maxDrawdown (run.equity_curve.map Prod.fst) := by
    unfold run_backtest at hok
    split at hok
    · exact absurd hok (by simp)
    · split at hok
      · exact absurd hok (by simp)
      · rcases Except.ok.inj hok with rfl
        rfl
  have hpos' : ∀ v ∈ run.equity_curve.map Prod.fst, 0 < v := by
    intro v hv
    rcases List.mem_map.1 hv with ⟨p, hp, rfl⟩
    exact hpos p hp
  rw [hmd]
  exact ⟨maxDrawdown_nonpos _, maxDrawdown_eq_zero_iff _ hpos'⟩

/-- Witness for C5 on a concrete completed flat run. -/
theorem run_max_drawdown_spec_witness :
    (BacktestRun.mk ⟨0, 1, 100, .daily, 1⟩ [(100, 100), (100, 100)]
        ⟨0, 0, 0, 0, 0⟩).stats.max_drawdown ≤ 0 ∧
    ((BacktestRun.mk ⟨0, 1, 100, .daily, 1⟩ [(100, 100), (100, 100)]
        ⟨0, 0, 0, 0, 0⟩).stats.max_drawdown = 0 ↔
      ((BacktestRun.mk ⟨0, 1, 100, .daily, 1⟩ [(100, 100), (100, 100)]
        ⟨0, 0, 0, 0, 0⟩).equity_curve.map Prod.fst).Chain' (· ≤ ·)) :=
  run_max_drawdown_spec ⟨0, 1, 100, .daily, 1⟩
    ⟨["XLK"], fun _ _ => 0, fun _ _ => 50, fun _ => 0⟩
    (BacktestRun.mk ⟨0, 1, 100, .daily, 1⟩ [(100, 100), (100, 100)]
      ⟨0, 0, 0, 0, 0⟩)
    (by norm_num [run_backtest, simulate, simStep, topSectors, rankSectors,
      listMean, isRebalanceDay, computeStats, totalReturn, winRate, maxDrawdown,
      drawdowns, curveReturns, List.insertionSort, List.orderedInsert,
      List.range', List.enum, List.enumFrom, List.tails, List.foldl])
    (by decide)

theorem applyEvent_invariant (c : BacktestForm) (e : FormEvent)
    (h : c.top_n_sectors ∈ topNOptions ∧ c.rebalance_frequency ∈ rebalanceOptions) :
    (applyEvent c e).top_n_sectors ∈ topNOptions ∧
      (applyEvent c e).rebalance_frequency ∈ rebalanceOptions := by
  cases e with
  | setStartDate s => exact h
  | setEndDate s => exact h
  | setCapital n => exact h
  | setRebalance i => exact ⟨h.1, List.get_mem _ _ _⟩
  | setTopN i => exact ⟨List.get_mem _ _ _, h.2⟩

theorem submittedForm_invariant (events : List FormEvent) :
    (submittedForm events).top_n_sectors ∈ topNOptions ∧
      (submittedForm events).rebalance_frequency ∈ rebalanceOptions := by
  suffices h : ∀ c : BacktestForm,
      c.top_n_sectors ∈ topNOptions ∧ c.rebalance_frequency ∈ rebalanceOptions →
      (events.foldl applyEvent c).top_n_sectors ∈ topNOptions ∧
        (events.foldl applyEvent c).rebalance_frequency ∈ rebalanceOptions by
    exact h initialForm ⟨by decide, by simp [initialForm, rebalanceOptions]⟩
  induction events with
  | nil => exact fun c h => h
  | cons e t ih =>
    intro c h
    exact ih (applyEvent c e) (applyEvent_invariant c e h)

/-- C10: every backtest request the frontend backtest page can submit
has top_n_sectors among {1,2,3,4,5} and rebalance_frequency among
{daily, weekly, monthly}; in particular the page never submits a
top_n_sectors value in 6..11 even though the data model allows
[1,11]. -/
theorem backtest_form_options_spec (events : List FormEvent) :
    (submittedForm events).top_n_sectors ∈ topNOptions ∧
    (submittedForm events).rebalance_frequency ∈ rebalanceOptions ∧
    1 ≤ (submittedForm events).top_n_sectors ∧
    (submittedForm events).top_n_sectors ≤ 5 ∧
    ¬ (6 ≤ (submittedForm events).top_n_sectors ∧
        (submittedForm events).top_n_sectors ≤ 11) := by
  obtain ⟨h1, h2⟩ := submittedForm_invariant events
  have hb : 1 ≤ (submittedForm events).top_n_sectors ∧
      (submittedForm events).top_n_sectors ≤ 5 := by
    have h1' := h1
    simp only [topNOptions, List.mem_cons, List.not_mem_nil, or_false] at h1'
    rcases h1' with h | h | h | h | h <;> omega
  exact ⟨h1, h2, hb.1, hb.2, fun hc => by omega⟩

end SectorRotation

